import Mathlib

/-!
# Verification of the context-window management core of `local-ai-chat`

Shallow embedding of `src/core/tokens.py` and `src/core/context_manager.py`.

Modelling conventions:
* Python strings are modelled as `List Char` (`Str`), restricted to the ASCII
  fragment (`\w`, `\s`, `str.strip`, `str.lower` are modelled by the
  corresponding ASCII character predicates).
* Python dicts standing for chat messages are modelled by `Msg` (keys `role`
  and `content`, each possibly absent).  A dict is *truthy* iff it has at
  least one key.
* `tokens.estimate_messages_tokens` reads arbitrary dict values through
  `str(m.get('content', '') or '')` inside `try/except`; its message model
  `TMessage` therefore carries a `PyVal` content: absent key, `None`, a
  string, an opaque non-string object (characterised by its `str()` rendering
  and its truthiness), or a value whose access raises.
* Python ints are modelled by `Int`.  The float arithmetic of
  `should_summarize` (`max_tokens * 0.7`) is modelled exactly: doubles are
  significand-exponent pairs with a 53-bit significand and round-to-nearest,
  ties-to-even (unbounded exponent range — overflow and subnormals cannot
  arise from `int * 0.7` below the `OverflowError` range), and CPython's
  mixed `int > float` comparison is exact.
-/

set_option maxRecDepth 8192

namespace LocalAIChat

abbrev Str := List Char

/-- ASCII fragment of Python whitespace (`\s`, `str.strip`). -/
def isSpaceChar (c : Char) : Bool := c.isWhitespace

/-- ASCII fragment of the Python regex class `\w`: letter, digit or underscore. -/
def isWordChar (c : Char) : Bool := c.isAlphanum || c == '_'

/-- `str.strip()`: drop leading and trailing whitespace. -/
def stripWs (s : Str) : Str :=
  ((s.dropWhile isSpaceChar).reverse.dropWhile isSpaceChar).reverse

/-- Number of matches of the compiled pattern `\w+|[^\w\s]` in `s`
(`_TOKEN_PATTERN.findall` in `tokens.py`): each maximal run of word
characters is one match, each non-word non-space character is one match,
whitespace separates matches.  The flag records whether the scan is
currently inside a word run. -/
def countUnitsAux : Str → Bool → Nat
  | [], _ => 0
  | c :: rest, inWord =>
    if isWordChar c then
      (if inWord then 0 else 1) + countUnitsAux rest true
    else if isSpaceChar c then
      countUnitsAux rest false
    else
      1 + countUnitsAux rest false

/-- Match count of `\w+|[^\w\s]` over `s`. -/
def countUnits (s : Str) : Nat := countUnitsAux s false

/-- `tokens.estimate_tokens`: `0` for empty / whitespace-only text, otherwise
`max(len(findall), ceil(len(stripped)/4))`; the ceiling is `(n+3)/4` on `Nat`. -/
def estimateTokens (text : Str) : Nat :=
  if text = [] then 0
  else
    let s := stripWs text
    if s = [] then 0
    else max (countUnits s) ((s.length + 3) / 4)

/-! ## Message dicts as seen by `tokens.estimate_messages_tokens` -/

/-- A Python value sitting under the `'content'` key of a message dict (or the
absence of that key), as far as `str(m.get('content', '') or '')` can observe
it.  `obj r t` is an opaque non-string value whose `str()` is `r` and whose
truthiness is `t`; `raising` is a value whose access raises. -/
inductive PyVal where
  | missing : PyVal
  | pyNone : PyVal
  | str : Str → PyVal
  | obj : Str → Bool → PyVal
  | raising : PyVal
deriving DecidableEq

/-- A message dict as consumed by `estimate_messages_tokens` (only the
`'content'` key is read). -/
structure TMessage where
  content : PyVal
deriving DecidableEq

/-- `str(m.get('content', '') or '')` for a non-raising value: falsy values
(`None`, `''`, falsy objects, absent key) collapse to `''`; truthy objects
render through `str()`. -/
def pyContentStr : PyVal → Str
  | .missing => []
  | .pyNone => []
  | .str s => s
  | .obj r t => if t then r else []
  | .raising => []

/-- The accumulator loop of `estimate_messages_tokens` (`overhead = 4`);
a message whose content access raises contributes only the overhead. -/
def emtLoop : List TMessage → Nat → Nat
  | [], total => total
  | m :: rest, total =>
    match m.content with
    | .raising => emtLoop rest (total + 4)
    | c => emtLoop rest (total + (estimateTokens (pyContentStr c) + 4))

/-- `tokens.estimate_messages_tokens`. -/
def estimateMessagesTokens (messages : List TMessage) : Nat :=
  if messages = [] then 0 else emtLoop messages 0

/-! ## Message dicts as seen by `context_manager.py`

`ContextManager` reads `m.get('role')` and `m.get('content', '')` and would
raise on a non-string content, so its message dicts are modelled with
optional string fields.  A dict is truthy iff it has at least one key. -/

structure Msg where
  role : Option Str
  content : Option Str
deriving DecidableEq

/-- Python truthiness of the message dict: non-empty. -/
def Msg.truthy (m : Msg) : Bool := m.role.isSome || m.content.isSome

/-- `m.get('content', '')`. -/
def getContent (m : Msg) : Str := m.content.getD []

def sysRole : Str := "system".toList
def userRole : Str := "user".toList
def assistantRole : Str := "assistant".toList

/-- `m.get('role') == 'system'`. -/
def isSystem (m : Msg) : Bool := decide (m.role = some sysRole)

/-- `message.copy()` followed by `truncated_msg['content'] = c`. -/
def setContent (m : Msg) (c : Str) : Msg := ⟨m.role, some c⟩

/-- `str.lower()` (ASCII fragment). -/
def toLowerStr (s : Str) : Str := s.map Char.toLower

/-- Python substring test `needle in hay`. -/
def hasSub (hay needle : Str) : Bool :=
  match hay with
  | [] => needle.isEmpty
  | _ :: rest => needle.isPrefixOf hay || hasSub rest needle

def userMarkers : List Str :=
  ["?", "how", "what", "why", "when", "where", "can you", "please"].map
    String.toList

def assistantMarkers : List Str :=
  ["```", "def ", "class ", "import ", "function", "method",
   "1.", "2.", "- ", "* ", "steps:", "example:"].map String.toList

/-- `ContextManager._is_important_message`. -/
def isImportant (m : Msg) : Bool :=
  let content := toLowerStr (getContent m)
  let role := m.role.getD []
  if role = userRole then
    userMarkers.any (fun mk => hasSub content mk)
  else if role = assistantRole then
    assistantMarkers.any (fun mk => hasSub content mk)
  else
    false

/-! ## The `ContextManager` class -/

structure ContextManager where
  maxTokens : Int
  reserveTokens : Int
  availableTokens : Int
deriving DecidableEq

/-- `ContextManager.__init__` (no clamping; `available = max − reserve`). -/
def ContextManager.init (maxTokens reserveTokens : Int) : ContextManager :=
  ⟨maxTokens, reserveTokens, maxTokens - reserveTokens⟩

/-- The default-constructed manager (`max_tokens=4096`, `reserve_tokens=512`). -/
def defaultCM : ContextManager := ContextManager.init 4096 512

/-- `ContextManager.set_max_tokens`. -/
def ContextManager.setMaxTokens (cm : ContextManager) (n : Int) : ContextManager :=
  let m := max 1024 n
  ⟨m, cm.reserveTokens, m - cm.reserveTokens⟩

/-- `ContextManager.set_reserve_tokens`. -/
def ContextManager.setReserveTokens (cm : ContextManager) (n : Int) : ContextManager :=
  let r := max 256 n
  ⟨cm.maxTokens, r, cm.maxTokens - r⟩

/-- `ContextManager.estimate_total_tokens`: content-only sum, **no**
per-message overhead (distinct from `tokens.estimate_messages_tokens`). -/
def estimateTotalTokens (messages : List Msg) : Nat :=
  (messages.map (fun m => estimateTokens (getContent m))).sum

/-! ### IEEE-754 binary64 arithmetic for `max_tokens * 0.7`

Doubles are modelled as pairs `(m, e) : Int × Int` of value `m · 2^e` with a
53-bit significand, rounded to nearest with ties to even.  The exponent range
is unbounded: overflow and subnormals cannot arise in `float(max_tokens)` or
`max_tokens * 0.7` for any `max_tokens` below Python's `OverflowError`
threshold, and no claim depends on that extreme. -/

/-- Fuel-based `⌊log₂ n⌋` (`log2Aux n n` is exact for every `n ≥ 1`; the
fuel is consumed once per halving, so only `≈log₂ n` steps are taken). -/
def log2Aux : Nat → Nat → Nat
  | 0, _ => 0
  | fuel + 1, n => if n ≤ 1 then 0 else 1 + log2Aux fuel (n / 2)

/-- `⌊log₂ n⌋` for `n ≥ 1`. -/
def log2Nat (n : Nat) : Nat := log2Aux n n

/-- Does `2^d ≤ a / q` hold (`a, q ≥ 1`)? -/
def dyLe (d : Int) (a q : Nat) : Bool :=
  if 0 ≤ d then q * 2 ^ d.toNat ≤ a else q ≤ a * 2 ^ (-d).toNat

/-- Round `A / B` (`B ≥ 1`) to the nearest integer, ties to even. -/
def rne (A B : Nat) : Nat :=
  let d := A / B
  let r := A % B
  if 2 * r < B then d
  else if B < 2 * r then d + 1
  else if d % 2 = 0 then d else d + 1

/-- Round the positive rational `a / q` (`a, q ≥ 1`) to the nearest binary64
value, ties to even: pick the exponent `e` with `2^e ≤ a/q < 2^(e+1)`, round
the 53-bit significand, and return `(m, e − 52)` of value `m · 2^(e−52)`. -/
def roundPosRat (a q : Nat) : Int × Int :=
  let d : Int := (log2Nat a : Int) - (log2Nat q : Int)
  let e : Int := if dyLe d a q then d else d - 1
  let shift : Int := 52 - e
  let m : Nat :=
    if 0 ≤ shift then rne (a * 2 ^ shift.toNat) q
    else rne a (q * 2 ^ (-shift).toNat)
  ((m : Int), e - 52)

/-- Round the rational `p / q` (`q ≥ 1`) to binary64 nearest-even. -/
def roundQ (p : Int) (q : Nat) : Int × Int :=
  if p = 0 then (0, 0)
  else if 0 < p then roundPosRat p.toNat q
  else (-(roundPosRat (-p).toNat q).1, (roundPosRat (-p).toNat q).2)

/-- `float(n)` for a Python int (exact below `2^53`, rounded above). -/
def floatOfInt (n : Int) : Int × Int := roundQ n 1

/-- The double denoted by the literal `0.7`. -/
def float07 : Int × Int := roundQ 7 10

/-- IEEE binary64 multiplication: the exact dyadic product, re-rounded to a
53-bit significand. -/
def floatMul (x y : Int × Int) : Int × Int :=
  let r := roundQ (x.1 * y.1) 1
  (r.1, r.2 + x.2 + y.2)

/-- The double computed by Python for `self.max_tokens * 0.7`. -/
def pyMulThreshold (maxT : Int) : Int × Int :=
  floatMul (floatOfInt maxT) float07

/-- CPython's exact mixed comparison `n > f` for an int `n` and a double `f`,
decided in exact integer arithmetic. -/
def floatLtInt (f : Int × Int) (n : Int) : Bool :=
  if 0 ≤ f.2 then decide (f.1 * 2 ^ f.2.toNat < n)
  else decide (f.1 < n * 2 ^ (-f.2).toNat)

/-- The exact rational value of a significand-exponent pair. -/
def floatVal (f : Int × Int) : ℚ := (f.1 : ℚ) * 2 ^ f.2

/-- `ContextManager.should_summarize`: `estimate_total_tokens(messages) >
max_tokens * 0.7`, with the right-hand side computed in IEEE binary64 and
the comparison exact. -/
def shouldSummarize (cm : ContextManager) (messages : List Msg) : Bool :=
  floatLtInt (pyMulThreshold cm.maxTokens) (estimateTotalTokens messages)

/-! ## Content truncation (`_truncate_content`) -/

/-- `c` is one of the sentence-ending characters of `re.split(r'[.!?]+', …)`. -/
def isSentEnd (c : Char) : Bool := c == '.' || c == '!' || c == '?'

/-- `re.split(r'[.!?]+', s)`: the flag records whether the previous character
belonged to a (maximal) delimiter run that has already closed a segment. -/
def splitSentAux : Str → Str → Bool → List Str
  | [], acc, _ => [acc.reverse]
  | c :: rest, acc, inDelim =>
    if isSentEnd c then
      if inDelim then splitSentAux rest [] true
      else acc.reverse :: splitSentAux rest [] true
    else splitSentAux rest (c :: acc) false

def splitSent (s : Str) : List Str := splitSentAux s [] false

/-- Python slicing `s[:k]` for an `Int` bound `k`. -/
def pyTake (s : Str) (k : Int) : Str :=
  if 0 ≤ k then s.take k.toNat else s.take ((s.length : Int) + k).toNat

/-- The greedy sentence loop of `_truncate_content`: keep appending
`sentence + "."` while the running estimate stays within `maxT`. -/
def sentLoop (maxT : Int) : List Str → Str → Str
  | [], acc => acc
  | s :: rest, acc =>
    let test := acc ++ s ++ ['.']
    if (estimateTokens test : Int) ≤ maxT then sentLoop maxT rest test
    else acc

/-- The character-count fallback at the end of `_truncate_content`
(`max_chars = max_tokens * 3`). -/
def truncFallback (content : Str) (maxT : Int) : Str :=
  let maxChars : Int := maxT * 3
  if maxChars < (content.length : Int) then pyTake content maxChars ++ "...".toList
  else content

/-- `ContextManager._truncate_content`. -/
def truncateContent (content : Str) (maxT : Int) : Str :=
  if (estimateTokens content : Int) ≤ maxT then content
  else
    let sentences := splitSent content
    if 1 < sentences.length then
      let tr := sentLoop maxT sentences []
      if tr ≠ [] then tr ++ "...".toList
      else truncFallback content maxT
    else truncFallback content maxT

/-! ## History selection (`_select_conversation_history`) -/

/-- The reverse scan of `_select_conversation_history`, processing the
newest-first list, with `current` the token count accumulated so far and
`selected` the messages already kept (chronological order).  The boolean
records whether the scan ended by rescuing a truncated important message. -/
def selectAux (budget : Int) : List Msg → Int → List Msg → List Msg × Bool
  | [], _, selected => (selected, false)
  | m :: olders, current, selected =>
    let tk : Int := estimateTokens (getContent m)
    if current + tk ≤ budget then
      selectAux budget olders (current + tk) (m :: selected)
    else
      if isImportant m = true ∧ selected.length < 2 then
        let remaining := budget - current
        if 50 < remaining then
          let tc := truncateContent (getContent m) remaining
          if tc ≠ [] then (setContent m tc :: selected, true)
          else selectAux budget olders current selected
        else selectAux budget olders current selected
      else (selected, false)

/-- `_select_conversation_history` together with the rescue flag. -/
def selectPair (budget : Int) (messages : List Msg) : List Msg × Bool :=
  if messages = [] then ([], false)
  else selectAux budget messages.reverse 0 []

/-- `ContextManager._select_conversation_history`. -/
def selectConversationHistory (budget : Int) (messages : List Msg) : List Msg :=
  (selectPair budget messages).fst

/-! ## `truncate_messages` -/

/-- `ContextManager.truncate_messages`, additionally returning whether the
history selection rescued a truncated important message. -/
def truncateMessagesAux (cm : ContextManager) (messages : List Msg) :
    List Msg × Bool :=
  if messages = [] then (messages, false)
  else
    let systemMessages := messages.filter (fun m => isSystem m)
    let otherMessages := messages.filter (fun m => !(isSystem m))
    if h : otherMessages = [] then (systemMessages, false)
    else
      let lastMessage := otherMessages.getLast h
      let conversationMessages :=
        if 1 < otherMessages.length then otherMessages.dropLast else []
      let systemTokens : Int := (estimateTotalTokens systemMessages : Int)
      let lastMessageTokens : Int :=
        if lastMessage.truthy then (estimateTokens (getContent lastMessage) : Int)
        else 0
      let requiredTokens := systemTokens + lastMessageTokens
      let availableForHistory := cm.availableTokens - requiredTokens
      if availableForHistory ≤ 0 then
        (systemMessages ++ (if lastMessage.truthy then [lastMessage] else []),
         false)
      else
        let p := selectPair availableForHistory conversationMessages
        (systemMessages ++ p.fst ++
           (if lastMessage.truthy then [lastMessage] else []),
         p.snd)

/-- `ContextManager.truncate_messages`. -/
def truncateMessages (cm : ContextManager) (messages : List Msg) : List Msg :=
  (truncateMessagesAux cm messages).fst

/-- The last non-system message of a history, if any. -/
def lastNonSystem (messages : List Msg) : Option Msg :=
  (messages.filter (fun m => !(isSystem m))).getLast?

/-- `conversation_messages` as computed inside `truncate_messages`. -/
def convOf (messages : List Msg) : List Msg :=
  let other := messages.filter (fun m => !(isSystem m))
  if 1 < other.length then other.dropLast else []

/-- Embedding of a `Msg` into the message model of
`tokens.estimate_messages_tokens`. -/
def msgToTMessage (m : Msg) : TMessage :=
  ⟨match m.content with
    | none => PyVal.missing
    | some s => PyVal.str s⟩

/-- The system messages of a history, in original order. -/
def sysOf (messages : List Msg) : List Msg :=
  messages.filter (fun m => isSystem m)

/-- The non-system messages of a history, in original order. -/
def nonSysOf (messages : List Msg) : List Msg :=
  messages.filter (fun m => !(isSystem m))

/-- `last_message_tokens` as computed in `truncate_messages` (0 for a falsy
last message). -/
def lastTokOf (L : Msg) : Int :=
  if L.truthy then (estimateTokens (getContent L) : Int) else 0

/-- `required_tokens` as computed in `truncate_messages`. -/
def requiredOf (messages : List Msg) (L : Msg) : Int :=
  (estimateTotalTokens (sysOf messages) : Int) + lastTokOf L

/-- The trailing `[last_message]` part of the output of `truncate_messages`
(empty when the last non-system message is falsy or absent). -/
def lastListOf (messages : List Msg) : List Msg :=
  match lastNonSystem messages with
  | some L => if L.truthy then [L] else []
  | none => []

/-- `sel` is a chronological selection from `conv`: a sublist of `conv`,
possibly with its first (oldest) element replaced by a content-truncated
copy.  This is the order-preservation property of the history selection. -/
def ChronoSel (sel conv : List Msg) : Prop :=
  List.Sublist sel conv ∨
  ∃ m tc tail, List.Sublist (m :: tail) conv ∧ sel = setContent m tc :: tail

/-! ## Concrete instances used by witnesses and counterexamples -/

/-- `"a a a … a"` with `n` letters: `n` regex units, `2n−1` characters. -/
def aRun (n : Nat) : Str := (List.replicate n 'a').intersperse ' '

/-- A long important user message: one short sentence of 50 one-letter words,
then a long second sentence containing the marker `what`.  112 tokens. -/
def bigContent : Str := aRun 50 ++ ".".toList ++ " what ".toList ++ aRun 60

def bigMsg : Msg := ⟨some userRole, some bigContent⟩

/-- A one-token user message. -/
def hiMsg : Msg := ⟨some userRole, some ("hi".toList)⟩

/-- An important user message of 46 tokens (contains `what`). -/
def whatMsg : Msg := ⟨some userRole, some ("what ".toList ++ aRun 45)⟩

/-- A user message with empty content. -/
def emptyContentMsg : Msg := ⟨some userRole, some []⟩

/-- The empty dict `{}`: a falsy, non-system message. -/
def emptyMsg : Msg := ⟨none, none⟩

/-- Manager with `max_tokens=52, reserve_tokens=0` (`available_tokens = 52`). -/
def cm52 : ContextManager := ContextManager.init 52 0

/-- Manager with `max_tokens=5, reserve_tokens=0`. -/
def cm5 : ContextManager := ContextManager.init 5 0

/-- Manager with `max_tokens=0, reserve_tokens=0` (`available_tokens = 0`). -/
def cm0 : ContextManager := ContextManager.init 0 0

/-- Manager with `max_tokens=90`: `90 * 0.7` rounds **below** the exact 63. -/
def cm90 : ContextManager := ContextManager.init 90 0

/-- Manager with `max_tokens=10`: `10 * 0.7` is exactly the double `7.0`. -/
def cm10 : ContextManager := ContextManager.init 10 0

/-- A user message of exactly 63 tokens (70.0% of 90). -/
def aMsg63 : Msg := ⟨some userRole, some (aRun 63)⟩

/-- A user message of exactly 7 tokens (70.0% of 10). -/
def aMsg7 : Msg := ⟨some userRole, some (aRun 7)⟩

/-! ## C10: the constructor enforces no floors -/

/-- C10 (confirmed): `ContextManager.__init__` stores `max_tokens` and
`reserve_tokens` exactly as given — even below the 1024/256 floors — and sets
`available_tokens = max_tokens − reserve_tokens` (possibly `≤ 0`). -/
theorem constructor_exact (m r : Int) :
    (ContextManager.init m r).maxTokens = m ∧
    (ContextManager.init m r).reserveTokens = r ∧
    (ContextManager.init m r).availableTokens = m - r :=
  ⟨rfl, rfl, rfl⟩

/-! ## C9: the setters clamp to floors and recompute `available_tokens` -/

/-- C9 (confirmed): after `set_max_tokens(n)` the manager has
`max_tokens = max 1024 n ≥ 1024`, after `set_reserve_tokens(n)` it has
`reserve_tokens = max 256 n ≥ 256`, and either setter recomputes
`available_tokens = max_tokens − reserve_tokens`. -/
theorem setters_clamp (cm : ContextManager) (n : Int) :
    (cm.setMaxTokens n).maxTokens = max 1024 n ∧
    (cm.setMaxTokens n).availableTokens =
      (cm.setMaxTokens n).maxTokens - (cm.setMaxTokens n).reserveTokens ∧
    1024 ≤ (cm.setMaxTokens n).maxTokens ∧
    (cm.setReserveTokens n).reserveTokens = max 256 n ∧
    (cm.setReserveTokens n).availableTokens =
      (cm.setReserveTokens n).maxTokens - (cm.setReserveTokens n).reserveTokens ∧
    256 ≤ (cm.setReserveTokens n).reserveTokens :=
  ⟨rfl, rfl, le_max_left 1024 n, rfl, rfl, le_max_left 256 n⟩

/-! ## C8: `estimate_tokens` -/

/-- `(n + 3) / 4` on `Nat` is the ceiling of `n / 4`. -/
lemma ceilDivFour (n : Nat) : (((n + 3) / 4 : Nat) : ℤ) = ⌈(n : ℚ) / 4⌉ := by
  have h1 : n ≤ 4 * ((n + 3) / 4) := by omega
  have h2 : 4 * ((n + 3) / 4) ≤ n + 3 := by omega
  rw [eq_comm, Int.ceil_eq_iff, Int.cast_natCast]
  have key1 : (4 : ℚ) * (((n + 3) / 4 : Nat) : ℚ) ≤ (n : ℚ) + 3 := by
    exact_mod_cast h2
  have key2 : (n : ℚ) ≤ 4 * (((n + 3) / 4 : Nat) : ℚ) := by
    exact_mod_cast h1
  constructor
  · linarith
  · linarith

/-- C8 (confirmed): `estimate_tokens` is a non-negative integer, is `0` exactly
on empty or whitespace-only text, and otherwise is the larger of the match
count of `\w+|[^\w\s]` over the stripped text and `⌈len(stripped)/4⌉`.
(Determinism is intrinsic: the embedding is a pure function.) -/
theorem estimateTokens_spec (s : Str) :
    0 ≤ (estimateTokens s : ℤ) ∧
    (stripWs s = [] → estimateTokens s = 0) ∧
    (stripWs s ≠ [] →
      (estimateTokens s : ℤ) =
        max (countUnits (stripWs s) : ℤ) ⌈((stripWs s).length : ℚ) / 4⌉) := by
  refine ⟨Int.ofNat_nonneg _, ?_, ?_⟩
  · intro h
    unfold estimateTokens
    split
    · rfl
    · simp [h]
  · intro h
    have hs : s ≠ [] := by
      intro he
      exact h (by simp [he, stripWs])
    unfold estimateTokens
    rw [if_neg hs, if_neg h]
    rw [← ceilDivFour]
    exact_mod_cast Nat.cast_max ..

/-- Witness for C8 at the concrete text `"ab cd!"` (stripped length 6,
3 regex units). -/
theorem estimateTokens_spec_witness :
    (estimateTokens ("ab cd!".toList) : ℤ) =
      max (countUnits (stripWs ("ab cd!".toList)) : ℤ)
        ⌈((stripWs ("ab cd!".toList)).length : ℚ) / 4⌉ :=
  (estimateTokens_spec ("ab cd!".toList)).2.2 (by decide)

/-! ## C1: `should_summarize` -/

/-- C1 counterexample: with `max_tokens = 5` and one user message of empty
content, the aggregate `estimate_messages_tokens` is `4`, strictly above the
double `5 * 0.7` (exactly `3.5`), so the claim predicts `True`; but
`should_summarize` (which uses the overhead-free `estimate_total_tokens`)
returns `False`. -/
theorem shouldSummarize_overhead_cex :
    floatLtInt (pyMulThreshold cm5.maxTokens)
      (estimateMessagesTokens [msgToTMessage emptyContentMsg]) = true ∧
    shouldSummarize cm5 [emptyContentMsg] = false := by
  refine ⟨by decide, by decide⟩

/-- The integer comparison of `floatLtInt` decides the exact rational
inequality `value(f) < n`. -/
lemma floatLtInt_iff (f : Int × Int) (n : Int) :
    floatLtInt f n = true ↔ floatVal f < (n : ℚ) := by
  rcases f with ⟨m, e⟩
  by_cases h : 0 ≤ e
  · obtain ⟨k, rfl⟩ : ∃ k : Nat, e = (k : Int) :=
      ⟨e.toNat, (Int.toNat_of_nonneg h).symm⟩
    simp only [floatLtInt, floatVal, Int.toNat_natCast]
    rw [if_pos h, decide_eq_true_eq, zpow_natCast]
    constructor
    · intro hlt
      exact_mod_cast hlt
    · intro hlt
      exact_mod_cast hlt
  · obtain ⟨k, rfl⟩ : ∃ k : Nat, e = -(k : Int) := ⟨(-e).toNat, by omega⟩
    simp only [floatLtInt, floatVal, neg_neg, Int.toNat_natCast]
    rw [if_neg h, decide_eq_true_eq, zpow_neg, zpow_natCast,
      show ((m : ℚ)) * ((2 : ℚ) ^ k)⁻¹ = (m : ℚ) / 2 ^ k from
        (div_eq_mul_inv _ _).symm,
      div_lt_iff (by positivity : (0 : ℚ) < (2 : ℚ) ^ k)]
    constructor
    · intro hlt
      exact_mod_cast hlt
    · intro hlt
      exact_mod_cast hlt

/-- C1 as amended: `should_summarize(history)` is true iff
`estimate_total_tokens(history)` — the manager's own content-only aggregate,
with **no** per-message overhead — strictly exceeds the IEEE binary64
product `max_tokens * 0.7`, the comparison being exact.  At a history whose
aggregate is exactly 70.0% of `max_tokens` the result depends on the
rounding of the product: `90 * 0.7` rounds below 63 so 63 tokens yield
`True`, while `10 * 0.7` is exactly `7.0` so 7 tokens yield `False`. -/
theorem shouldSummarize_threshold (cm : ContextManager) (messages : List Msg) :
    (shouldSummarize cm messages = true ↔
      floatVal (pyMulThreshold cm.maxTokens) <
        (estimateTotalTokens messages : ℚ)) ∧
    estimateTotalTokens [aMsg63] * 10 = cm90.maxTokens.toNat * 7 ∧
    shouldSummarize cm90 [aMsg63] = true ∧
    estimateTotalTokens [aMsg7] * 10 = cm10.maxTokens.toNat * 7 ∧
    shouldSummarize cm10 [aMsg7] = false := by
  refine ⟨?_, by decide, by decide, by decide, by decide⟩
  have h := floatLtInt_iff (pyMulThreshold cm.maxTokens)
    (estimateTotalTokens messages)
  rw [show (((estimateTotalTokens messages : Int)) : ℚ) =
      ((estimateTotalTokens messages : ℚ)) from by push_cast; rfl] at h
  exact h

/-! ## C4: `estimate_messages_tokens` -/

/-- The accumulator of the `estimate_messages_tokens` loop splits off. -/
lemma emtLoop_shift (l : List TMessage) : ∀ total, emtLoop l total = total + emtLoop l 0 := by
  induction l with
  | nil => intro total; simp [emtLoop]
  | cons m rest ih =>
    intro total
    cases h : m.content <;>
      simp only [emtLoop, h] <;>
      rw [ih, @ih (0 + _)] <;> omega

/-- `estimate_messages_tokens` equals its loop started at `0` (the
empty-list early return is redundant). -/
lemma emt_eq_loop (l : List TMessage) : estimateMessagesTokens l = emtLoop l 0 := by
  cases l <;> rfl

/-- C4 counterexample: a message whose content is the Python integer `5`
(truthy, non-string) contributes `estimate_tokens(str(5)) = 1` content token
on top of the 4-token overhead — not 0 as the claim states. -/
theorem estimateMessagesTokens_nonstring_cex :
    estimateMessagesTokens [⟨PyVal.obj ("5".toList) true⟩] = 5 := by decide

/-- C4 as amended: `estimate_messages_tokens` returns 0 on the empty list and
otherwise adds, per message, a fixed overhead of 4 plus the estimate of
`str(content or '')`: missing content, `None`, and *falsy* non-string values
contribute 0 content tokens; string content contributes its own estimate;
*truthy* non-string content contributes the estimate of its `str()`
rendering; a message whose content access raises contributes only the
overhead. -/
theorem estimateMessagesTokens_cases (t : List TMessage) (m : TMessage) (s : Str) :
    estimateMessagesTokens [] = 0 ∧
    (m.content = PyVal.missing →
      estimateMessagesTokens (m :: t) = 4 + estimateMessagesTokens t) ∧
    (m.content = PyVal.pyNone →
      estimateMessagesTokens (m :: t) = 4 + estimateMessagesTokens t) ∧
    (m.content = PyVal.raising →
      estimateMessagesTokens (m :: t) = 4 + estimateMessagesTokens t) ∧
    (m.content = PyVal.str s →
      estimateMessagesTokens (m :: t) =
        estimateTokens s + 4 + estimateMessagesTokens t) ∧
    (∀ r b, m.content = PyVal.obj r b →
      estimateMessagesTokens (m :: t) =
        (if b then estimateTokens r else 0) + 4 + estimateMessagesTokens t) := by
  have hnil : estimateTokens [] = 0 := rfl
  refine ⟨rfl, ?_, ?_, ?_, ?_, ?_⟩
  · intro h
    rw [emt_eq_loop, emt_eq_loop]
    simp only [emtLoop, h, pyContentStr]
    rw [emtLoop_shift]
    omega
  · intro h
    rw [emt_eq_loop, emt_eq_loop]
    simp only [emtLoop, h, pyContentStr]
    rw [emtLoop_shift]
    omega
  · intro h
    rw [emt_eq_loop, emt_eq_loop]
    simp only [emtLoop, h]
    rw [emtLoop_shift]
  · intro h
    rw [emt_eq_loop, emt_eq_loop]
    simp only [emtLoop, h, pyContentStr]
    rw [emtLoop_shift]
    omega
  · intro r b h
    rw [emt_eq_loop, emt_eq_loop]
    simp only [emtLoop, h, pyContentStr]
    rw [emtLoop_shift]
    cases b
    · simp only [Bool.false_eq_true, if_false, hnil]
    · simp only [if_true]
      all_goals omega

/-! ## C2: the reverse scan and its stopping behaviour -/

/-- `_truncate_content` never returns the empty string on non-empty input:
every exit path returns the original content or appends `"..."`. -/
lemma truncateContent_ne_nil (c : Str) (k : Int) (h : c ≠ []) :
    truncateContent c k ≠ [] := by
  have hdots : ("...".toList : Str) ≠ [] := by decide
  simp only [truncateContent, truncFallback]
  split_ifs <;>
    first
    | exact h
    | (intro he
       rcases List.append_eq_nil.mp he with ⟨-, h2⟩
       exact hdots h2)

/-- C2 counterexample: with budget 40, the newest message `whatMsg` (46
tokens, important, `remaining = 40 ≤ 50`) is rejected, yet the scan does
**not** stop: it continues and admits the older one-token message. -/
theorem selectHistory_skip_cex :
    40 < (estimateTokens (getContent whatMsg) : Int) ∧
    isImportant whatMsg = true ∧
    selectConversationHistory 40 [hiMsg, whatMsg] = [hiMsg] := by
  refine ⟨by decide, by decide, by decide⟩

/-- C2 as amended: when the scan reaches a message that does not fit, it stops
there — returning the messages selected so far, possibly with a truncated
copy of the rejected message prepended — **unless** the rejected message is
important, fewer than 2 messages are selected, and the remaining budget is
≤ 50, in which case the rejected message is skipped and the scan continues
with older messages (so an older message can still be admitted). -/
theorem selectAux_stop_at_rejected (b cur : Int) (r : Msg) (older acc : List Msg)
    (hrej : b < cur + (estimateTokens (getContent r) : Int))
    (hnoskip : ¬(isImportant r = true ∧ acc.length < 2 ∧ b - cur ≤ 50)) :
    (selectAux b (r :: older) cur acc).fst = acc ∨
    ∃ tc, (selectAux b (r :: older) cur acc).fst = setContent r tc :: acc := by
  have hno : ¬(cur + (estimateTokens (getContent r) : Int) ≤ b) := by omega
  simp only [selectAux]
  rw [if_neg hno]
  by_cases himp : isImportant r = true ∧ acc.length < 2
  · rw [if_pos himp]
    have h50 : 50 < b - cur := by
      rcases himp with ⟨h1, h2⟩
      by_contra hle
      exact hnoskip ⟨h1, h2, by omega⟩
    rw [if_pos h50]
    have hcne : getContent r ≠ [] := by
      intro hc
      rw [hc] at hrej
      have hz : estimateTokens ([] : Str) = 0 := rfl
      rw [hz] at hrej
      omega
    have htc := truncateContent_ne_nil (getContent r) (b - cur) hcne
    rw [if_pos htc]
    exact Or.inr ⟨truncateContent (getContent r) (b - cur), rfl⟩
  · rw [if_neg himp]
    exact Or.inl rfl

/-- Witness for C2's amended theorem: budget 60, rejected important message
with remaining budget `60 > 50` — the scan stops (here: by rescuing). -/
theorem selectAux_stop_at_rejected_witness :
    (selectAux 60 [bigMsg, hiMsg] 0 []).fst = [] ∨
    ∃ tc, (selectAux 60 [bigMsg, hiMsg] 0 []).fst = setContent bigMsg tc :: [] :=
  selectAux_stop_at_rejected 60 0 bigMsg [hiMsg] [] (by decide) (by decide)

/-- Witness for C4: a missing-content message on top of a one-string-message
tail. -/
theorem estimateMessagesTokens_cases_witness :
    estimateMessagesTokens [(⟨PyVal.missing⟩ : TMessage), ⟨PyVal.str ("hi".toList)⟩] =
      4 + estimateMessagesTokens [(⟨PyVal.str ("hi".toList)⟩ : TMessage)] :=
  (estimateMessagesTokens_cases [⟨PyVal.str ("hi".toList)⟩] ⟨PyVal.missing⟩ []).2.1 rfl

/-! ## Invariants of the reverse scan -/

lemma estimateTotalTokens_nil : estimateTotalTokens [] = 0 := rfl

lemma estimateTotalTokens_cons (m : Msg) (l : List Msg) :
    estimateTotalTokens (m :: l) =
      estimateTokens (getContent m) + estimateTotalTokens l := by
  simp [estimateTotalTokens]

lemma estimateTotalTokens_append (l₁ l₂ : List Msg) :
    estimateTotalTokens (l₁ ++ l₂) =
      estimateTotalTokens l₁ + estimateTotalTokens l₂ := by
  simp [estimateTotalTokens]

lemma estimateTotalTokens_reverse (l : List Msg) :
    estimateTotalTokens l.reverse = estimateTotalTokens l := by
  simp [estimateTotalTokens, List.sum_reverse]

/-- If the scan did not rescue, its result extends the accumulator by the
reverse of a sublist of the scan list (scan order is newest-first, so the
reverse is chronological). -/
lemma selectAux_norescue (b : Int) :
    ∀ (l : List Msg) (cur : Int) (acc : List Msg),
      (selectAux b l cur acc).snd = false →
      ∃ s, List.Sublist s l ∧ (selectAux b l cur acc).fst = s.reverse ++ acc := by
  intro l
  induction l with
  | nil =>
    intro cur acc _
    exact ⟨[], List.nil_sublist _, rfl⟩
  | cons m olders ih =>
    intro cur acc hflag
    simp only [selectAux] at hflag ⊢
    by_cases hfit : cur + (estimateTokens (getContent m) : Int) ≤ b
    · rw [if_pos hfit] at hflag ⊢
      obtain ⟨s, hs, he⟩ :=
        ih (cur + (estimateTokens (getContent m) : Int)) (m :: acc) hflag
      refine ⟨m :: s, hs.cons₂ m, ?_⟩
      rw [he]
      simp [List.append_assoc]
    · rw [if_neg hfit] at hflag ⊢
      by_cases himp : isImportant m = true ∧ acc.length < 2
      · rw [if_pos himp] at hflag ⊢
        by_cases h50 : 50 < b - cur
        · rw [if_pos h50] at hflag ⊢
          by_cases htc : truncateContent (getContent m) (b - cur) ≠ []
          · rw [if_pos htc] at hflag
            simp at hflag
          · rw [if_neg htc] at hflag ⊢
            obtain ⟨s, hs, he⟩ := ih cur acc hflag
            exact ⟨s, hs.cons m, he⟩
        · rw [if_neg h50] at hflag ⊢
          obtain ⟨s, hs, he⟩ := ih cur acc hflag
          exact ⟨s, hs.cons m, he⟩
      · rw [if_neg himp] at hflag ⊢
        exact ⟨[], List.nil_sublist _, rfl⟩

/-- If the scan did not rescue, the tokens of its result stay within
`accumulated + (budget − current)`. -/
lemma selectAux_sum (b : Int) :
    ∀ (l : List Msg) (cur : Int) (acc : List Msg),
      cur ≤ b → (selectAux b l cur acc).snd = false →
      (estimateTotalTokens (selectAux b l cur acc).fst : Int) ≤
        (estimateTotalTokens acc : Int) + (b - cur) := by
  intro l
  induction l with
  | nil =>
    intro cur acc hcur _
    simp only [selectAux]
    omega
  | cons m olders ih =>
    intro cur acc hcur hflag
    simp only [selectAux] at hflag ⊢
    by_cases hfit : cur + (estimateTokens (getContent m) : Int) ≤ b
    · rw [if_pos hfit] at hflag ⊢
      have hrec :=
        ih (cur + (estimateTokens (getContent m) : Int)) (m :: acc) hfit hflag
      rw [estimateTotalTokens_cons] at hrec
      push_cast at hrec ⊢
      omega
    · rw [if_neg hfit] at hflag ⊢
      by_cases himp : isImportant m = true ∧ acc.length < 2
      · rw [if_pos himp] at hflag ⊢
        by_cases h50 : 50 < b - cur
        · rw [if_pos h50] at hflag ⊢
          by_cases htc : truncateContent (getContent m) (b - cur) ≠ []
          · rw [if_pos htc] at hflag
            simp at hflag
          · rw [if_neg htc] at hflag ⊢
            exact ih cur acc hcur hflag
        · rw [if_neg h50] at hflag ⊢
          exact ih cur acc hcur hflag
      · rw [if_neg himp] at hflag ⊢
        show (estimateTotalTokens acc : Int) ≤ (estimateTotalTokens acc : Int) + (b - cur)
        omega

/-- If the whole scan list fits the budget, every message is accepted. -/
lemma selectAux_accept_all (b : Int) :
    ∀ (l : List Msg) (cur : Int) (acc : List Msg),
      cur + (estimateTotalTokens l : Int) ≤ b →
      selectAux b l cur acc = (l.reverse ++ acc, false) := by
  intro l
  induction l with
  | nil =>
    intro cur acc _
    simp [selectAux]
  | cons m olders ih =>
    intro cur acc hsum
    rw [estimateTotalTokens_cons] at hsum
    push_cast at hsum
    simp only [selectAux]
    rw [if_pos (by omega)]
    rw [ih (cur + (estimateTokens (getContent m) : Int)) (m :: acc) (by omega)]
    simp [List.append_assoc]

/-- A history whose total estimate fits the budget is returned unchanged by
`_select_conversation_history`. -/
lemma selectPair_self (b : Int) (sel : List Msg)
    (hsum : (estimateTotalTokens sel : Int) ≤ b) :
    selectPair b sel = (sel, false) := by
  unfold selectPair
  by_cases h : sel = []
  · simp [h]
  · rw [if_neg h]
    rw [selectAux_accept_all b sel.reverse 0 []
      (by rw [estimateTotalTokens_reverse]; omega)]
    simp

/-- No-rescue bound for `selectPair`: tokens of the selection stay within a
non-negative budget. -/
lemma selectPair_sum (b : Int) (conv : List Msg) (hb : 0 ≤ b)
    (hflag : (selectPair b conv).snd = false) :
    (estimateTotalTokens (selectPair b conv).fst : Int) ≤ b := by
  unfold selectPair at hflag ⊢
  by_cases h : conv = []
  · simp [h, estimateTotalTokens_nil]
    omega
  · rw [if_neg h] at hflag ⊢
    have := selectAux_sum b conv.reverse 0 [] hb hflag
    rw [estimateTotalTokens_nil] at this
    omega

/-- No-rescue structure for `selectPair`: the selection is a sublist of the
input in chronological order. -/
lemma selectPair_norescue (b : Int) (conv : List Msg)
    (hflag : (selectPair b conv).snd = false) :
    List.Sublist (selectPair b conv).fst conv := by
  unfold selectPair at hflag ⊢
  by_cases h : conv = []
  · simp [h]
  · rw [if_neg h] at hflag ⊢
    obtain ⟨s, hs, he⟩ := selectAux_norescue b conv.reverse 0 [] hflag
    rw [he, List.append_nil]
    have := hs.reverse
    rwa [List.reverse_reverse] at this

/-- Structure of the scan result, rescue included: the accumulator is extended
by the reverse of a scanned sublist, whose last-scanned (oldest) element may
be a content-truncated copy. -/
lemma selectAux_shape (b : Int) :
    ∀ (l : List Msg) (cur : Int) (acc : List Msg),
      ∃ pre, (selectAux b l cur acc).fst = pre ++ acc ∧
        ((∃ s, List.Sublist s l ∧ pre = s.reverse) ∨
         (∃ m tc s, List.Sublist (s ++ [m]) l ∧
            pre = setContent m tc :: s.reverse)) := by
  intro l
  induction l with
  | nil =>
    intro cur acc
    exact ⟨[], rfl, Or.inl ⟨[], List.nil_sublist _, rfl⟩⟩
  | cons m olders ih =>
    intro cur acc
    simp only [selectAux]
    by_cases hfit : cur + (estimateTokens (getContent m) : Int) ≤ b
    · rw [if_pos hfit]
      obtain ⟨pre, he, hshape⟩ :=
        ih (cur + (estimateTokens (getContent m) : Int)) (m :: acc)
      refine ⟨pre ++ [m], ?_, ?_⟩
      · rw [he]
        simp [List.append_assoc]
      · rcases hshape with ⟨s, hs, hpre⟩ | ⟨m', tc, s, hs, hpre⟩
        · refine Or.inl ⟨m :: s, hs.cons₂ m, ?_⟩
          rw [hpre]
          simp
        · refine Or.inr ⟨m', tc, m :: s, ?_, ?_⟩
          · simpa using hs.cons₂ m
          · rw [hpre]
            simp
    · rw [if_neg hfit]
      by_cases himp : isImportant m = true ∧ acc.length < 2
      · rw [if_pos himp]
        by_cases h50 : 50 < b - cur
        · rw [if_pos h50]
          by_cases htc : truncateContent (getContent m) (b - cur) ≠ []
          · rw [if_pos htc]
            refine ⟨[setContent m (truncateContent (getContent m) (b - cur))],
              rfl, Or.inr ⟨m, truncateContent (getContent m) (b - cur), [],
                ?_, rfl⟩⟩
            simpa using (List.nil_sublist olders).cons₂ m
          · rw [if_neg htc]
            obtain ⟨pre, he, hshape⟩ := ih cur acc
            refine ⟨pre, he, ?_⟩
            rcases hshape with ⟨s, hs, hpre⟩ | ⟨m', tc, s, hs, hpre⟩
            · exact Or.inl ⟨s, hs.cons m, hpre⟩
            · exact Or.inr ⟨m', tc, s, hs.cons m, hpre⟩
        · rw [if_neg h50]
          obtain ⟨pre, he, hshape⟩ := ih cur acc
          refine ⟨pre, he, ?_⟩
          rcases hshape with ⟨s, hs, hpre⟩ | ⟨m', tc, s, hs, hpre⟩
          · exact Or.inl ⟨s, hs.cons m, hpre⟩
          · exact Or.inr ⟨m', tc, s, hs.cons m, hpre⟩
      · rw [if_neg himp]
        exact ⟨[], rfl, Or.inl ⟨[], List.nil_sublist _, rfl⟩⟩

/-- The history selection is always a chronological selection of its input. -/
lemma selectPair_chrono (b : Int) (conv : List Msg) :
    ChronoSel (selectPair b conv).fst conv := by
  unfold selectPair
  by_cases h : conv = []
  · rw [if_pos h]
    exact Or.inl (List.nil_sublist _)
  · rw [if_neg h]
    obtain ⟨pre, he, hshape⟩ := selectAux_shape b conv.reverse 0 []
    rw [List.append_nil] at he
    rw [he]
    rcases hshape with ⟨s, hs, hpre⟩ | ⟨m, tc, s, hs, hpre⟩
    · left
      subst hpre
      have hrev := hs.reverse
      rwa [List.reverse_reverse] at hrev
    · right
      refine ⟨m, tc, s.reverse, ?_, hpre⟩
      have hrev := hs.reverse
      rw [List.reverse_append, List.reverse_reverse] at hrev
      simpa using hrev

/-! ## Role-partition bookkeeping -/

lemma sysOf_append (l₁ l₂ : List Msg) :
    sysOf (l₁ ++ l₂) = sysOf l₁ ++ sysOf l₂ := by
  simp [sysOf]

lemma nonSysOf_append (l₁ l₂ : List Msg) :
    nonSysOf (l₁ ++ l₂) = nonSysOf l₁ ++ nonSysOf l₂ := by
  simp [nonSysOf]

lemma mem_sysOf_isSystem {m : Msg} {l : List Msg} (h : m ∈ sysOf l) :
    isSystem m = true := by
  unfold sysOf at h
  exact (List.mem_filter.mp h).2

lemma mem_nonSysOf_isSystem {m : Msg} {l : List Msg} (h : m ∈ nonSysOf l) :
    isSystem m = false := by
  unfold nonSysOf at h
  have := (List.mem_filter.mp h).2
  simpa using this

lemma sysOf_of_sys (l : List Msg) (h : ∀ m ∈ l, isSystem m = true) :
    sysOf l = l :=
  List.filter_eq_self.mpr h

lemma nonSysOf_of_sys (l : List Msg) (h : ∀ m ∈ l, isSystem m = true) :
    nonSysOf l = [] := by
  unfold nonSysOf
  rw [List.filter_eq_nil]
  intro m hm
  simp [h m hm]

lemma sysOf_of_nonsys (l : List Msg) (h : ∀ m ∈ l, isSystem m = false) :
    sysOf l = [] := by
  unfold sysOf
  rw [List.filter_eq_nil]
  intro m hm
  simp [h m hm]

lemma nonSysOf_of_nonsys (l : List Msg) (h : ∀ m ∈ l, isSystem m = false) :
    nonSysOf l = l := by
  unfold nonSysOf
  apply List.filter_eq_self.mpr
  intro m hm
  simp [h m hm]

lemma lastNonSystem_isSystem {messages : List Msg} {L : Msg}
    (hL : lastNonSystem messages = some L) : isSystem L = false := by
  unfold lastNonSystem at hL
  have hmem : L ∈ (messages.filter (fun m => !(isSystem m))).getLast? := by
    rw [hL]
    rfl
  obtain ⟨h, hx⟩ := List.mem_getLast?_eq_getLast hmem
  have hmem2 : L ∈ messages.filter (fun m => !(isSystem m)) := by
    rw [hx]
    exact List.getLast_mem h
  have hb := (List.mem_filter.mp hmem2).2
  simpa using hb

lemma convOf_subset (messages : List Msg) :
    convOf messages ⊆ nonSysOf messages := by
  unfold convOf nonSysOf
  by_cases h : 1 < (messages.filter (fun m => !(isSystem m))).length
  · rw [if_pos h]
    exact List.dropLast_subset _
  · rw [if_neg h]
    exact List.nil_subset _

/-! ## Characterisations of the three branches of `truncate_messages` -/

/-- `truncate_messages` on a history with no non-system messages returns the
system messages. -/
lemma truncAux_nosys (cm : ContextManager) (messages : List Msg)
    (h : nonSysOf messages = []) :
    truncateMessagesAux cm messages = (sysOf messages, false) := by
  unfold nonSysOf at h
  simp only [truncateMessagesAux]
  by_cases hm : messages = []
  · subst hm
    simp [sysOf]
  · rw [if_neg hm, dif_pos h]
    simp [sysOf]

/-- The hard-floor branch: system messages plus the live prompt already
consume the budget, so the output is `system + [last]` (the last message
dropped when falsy). -/
lemma truncAux_floor (cm : ContextManager) (messages : List Msg) (L : Msg)
    (hL : lastNonSystem messages = some L)
    (hfloor : cm.availableTokens - requiredOf messages L ≤ 0) :
    truncateMessagesAux cm messages =
      (sysOf messages ++ (if L.truthy then [L] else []), false) := by
  have hne : messages.filter (fun m => !(isSystem m)) ≠ [] := by
    intro h
    unfold lastNonSystem at hL
    rw [h] at hL
    simp at hL
  have hmne : messages ≠ [] := by
    intro h
    apply hne
    rw [h]
    rfl
  have hlast : (messages.filter (fun m => !(isSystem m))).getLast hne = L := by
    have hg := List.getLast?_eq_getLast
      (messages.filter (fun m => !(isSystem m))) hne
    unfold lastNonSystem at hL
    rw [hg] at hL
    exact Option.some.inj hL
  have hcond : cm.availableTokens -
      ((estimateTotalTokens (messages.filter (fun m => isSystem m)) : Int) +
        (if L.truthy then (estimateTokens (getContent L) : Int) else 0)) ≤ 0 := by
    unfold requiredOf sysOf lastTokOf at hfloor
    exact hfloor
  simp only [truncateMessagesAux]
  rw [if_neg hmne, dif_neg hne, hlast, if_pos hcond]
  simp [sysOf]

/-- The main branch: positive history budget; the output is
`system + selected + [last]` and the flag is the rescue flag of the scan. -/
lemma truncAux_main (cm : ContextManager) (messages : List Msg) (L : Msg)
    (hL : lastNonSystem messages = some L)
    (hpos : 0 < cm.availableTokens - requiredOf messages L) :
    truncateMessagesAux cm messages =
      (sysOf messages ++
        (selectPair (cm.availableTokens - requiredOf messages L)
          (convOf messages)).fst ++
        (if L.truthy then [L] else []),
       (selectPair (cm.availableTokens - requiredOf messages L)
         (convOf messages)).snd) := by
  have hne : messages.filter (fun m => !(isSystem m)) ≠ [] := by
    intro h
    unfold lastNonSystem at hL
    rw [h] at hL
    simp at hL
  have hmne : messages ≠ [] := by
    intro h
    apply hne
    rw [h]
    rfl
  have hlast : (messages.filter (fun m => !(isSystem m))).getLast hne = L := by
    have hg := List.getLast?_eq_getLast
      (messages.filter (fun m => !(isSystem m))) hne
    unfold lastNonSystem at hL
    rw [hg] at hL
    exact Option.some.inj hL
  have hcond : ¬(cm.availableTokens -
      ((estimateTotalTokens (messages.filter (fun m => isSystem m)) : Int) +
        (if L.truthy then (estimateTokens (getContent L) : Int) else 0)) ≤ 0) := by
    unfold requiredOf sysOf lastTokOf at hpos
    omega
  simp only [truncateMessagesAux]
  rw [if_neg hmne, dif_neg hne, hlast, if_neg hcond]
  simp only [sysOf, convOf, nonSysOf, requiredOf, lastTokOf]

/-! ## C6: the hard-floor branch -/

/-- C6 counterexample: history `[{}]` (one empty dict — a falsy, non-system
message) with `available_tokens = 0`: system+last tokens (0) meet the budget,
yet the output is `[]`, not `system + [last] = [{}]`, because
`if last_message:` drops the falsy dict. -/
theorem truncate_floor_cex :
    lastNonSystem [emptyMsg] = some emptyMsg ∧
    cm0.availableTokens ≤
      (estimateTotalTokens (sysOf [emptyMsg]) : Int) +
        (estimateTokens (getContent emptyMsg) : Int) ∧
    truncateMessages cm0 [emptyMsg] = [] := by
  refine ⟨by decide, by decide, by decide⟩

/-- C6 as amended: whenever the estimated tokens of the system messages plus
the last non-system message meet or exceed `available_tokens`, and the last
non-system message is a non-empty (truthy) dict, `truncate_messages` returns
exactly the system messages followed by that last message, with no
conversation history (and, being a total function here, it does not raise). -/
theorem truncate_floor_amended (cm : ContextManager) (messages : List Msg)
    (L : Msg) (hL : lastNonSystem messages = some L) (ht : L.truthy = true)
    (hfloor : cm.availableTokens ≤
      (estimateTotalTokens (sysOf messages) : Int) +
        (estimateTokens (getContent L) : Int)) :
    truncateMessages cm messages = sysOf messages ++ [L] := by
  have hreq : requiredOf messages L =
      (estimateTotalTokens (sysOf messages) : Int) +
        (estimateTokens (getContent L) : Int) := by
    unfold requiredOf lastTokOf
    rw [if_pos ht]
  unfold truncateMessages
  rw [truncAux_floor cm messages L hL (by omega)]
  simp [ht]

/-- Witness for C6: `available_tokens = 0`, one truthy user message. -/
theorem truncate_floor_amended_witness :
    truncateMessages cm0 [hiMsg] = sysOf [hiMsg] ++ [hiMsg] :=
  truncate_floor_amended cm0 [hiMsg] hiMsg (by decide) (by decide) (by decide)

/-! ## C5: shape of the output -/

/-- C5 counterexample: the input `[{}]` has a non-system message (the empty
dict), but the output of `truncate_messages` is empty — the falsy last
message is not appended, so the last element of the output is not the last
non-system message of the input. -/
theorem truncate_shape_cex :
    lastNonSystem [emptyMsg] = some emptyMsg ∧
    truncateMessages defaultCM [emptyMsg] = [] := by
  refine ⟨by decide, by decide⟩

/-- C5 as amended: when the last non-system message `L` of the input is a
non-empty (truthy) dict, the output of `truncate_messages` is exactly the
system messages in original order and unmodified, then a chronological
selection of the prior conversation messages (a sublist, possibly with its
first element replaced by a content-truncated copy), then `L` itself,
unmodified, as the final element. -/
theorem truncate_shape_amended (cm : ContextManager) (messages : List Msg)
    (L : Msg) (hL : lastNonSystem messages = some L) (ht : L.truthy = true) :
    ∃ sel, truncateMessages cm messages = sysOf messages ++ sel ++ [L] ∧
      ChronoSel sel (convOf messages) := by
  unfold truncateMessages
  by_cases hpos : 0 < cm.availableTokens - requiredOf messages L
  · rw [truncAux_main cm messages L hL hpos]
    refine ⟨(selectPair (cm.availableTokens - requiredOf messages L)
      (convOf messages)).fst, ?_, selectPair_chrono _ _⟩
    simp [ht]
  · rw [truncAux_floor cm messages L hL (by omega)]
    refine ⟨[], ?_, Or.inl (List.nil_sublist _)⟩
    simp [ht]

/-- Witness for C5 at a small concrete history. -/
theorem truncate_shape_amended_witness :
    ∃ sel, truncateMessages defaultCM [hiMsg] =
        sysOf [hiMsg] ++ sel ++ [hiMsg] ∧
      ChronoSel sel (convOf [hiMsg]) :=
  truncate_shape_amended defaultCM [hiMsg] hiMsg (by decide) (by decide)

/-! ## C3: the budget invariant -/

/-- C3 counterexample: with `available_tokens = 52` and history
`[bigMsg, hiMsg]`, system+last alone need only 1 token, yet the output
(containing a rescued truncated copy whose `"..."` suffix pushes its estimate
to 54) totals 55 tokens, exceeding the budget. -/
theorem truncate_budget_cex :
    (estimateTotalTokens (sysOf [bigMsg, hiMsg]) : Int) +
        (estimateTokens (getContent hiMsg) : Int) ≤ cm52.availableTokens ∧
    cm52.availableTokens <
      (estimateTotalTokens (truncateMessages cm52 [bigMsg, hiMsg]) : Int) := by
  refine ⟨by decide, by decide⟩

/-- C3 as amended: when the history selection performs **no** rescue of a
truncated important message, the content-only token sum of the output of
`truncate_messages` is at most `available_tokens`, unless the output is the
hard-floor result `system + [last]` (system messages plus the last
non-system message alone meet or exceed the budget); a rescue may overshoot
the budget, as the counterexample shows. -/
theorem truncate_budget_amended (cm : ContextManager) (messages : List Msg)
    (hres : (truncateMessagesAux cm messages).snd = false) :
    (estimateTotalTokens (truncateMessages cm messages) : Int) ≤
      cm.availableTokens ∨
    truncateMessages cm messages = sysOf messages ++ lastListOf messages := by
  unfold truncateMessages
  cases hL : lastNonSystem messages with
  | none =>
    right
    have hnil : nonSysOf messages = [] := by
      unfold lastNonSystem at hL
      cases hfil : messages.filter (fun m => !(isSystem m)) with
      | nil =>
        unfold nonSysOf
        exact hfil
      | cons a l =>
        rw [hfil] at hL
        rw [List.getLast?_eq_getLast (a :: l) (by simp)] at hL
        simp at hL
    rw [truncAux_nosys cm messages hnil]
    unfold lastListOf
    rw [hL]
    simp
  | some L =>
    by_cases hpos : 0 < cm.availableTokens - requiredOf messages L
    · left
      rw [truncAux_main cm messages L hL hpos]
      have hflag : (selectPair (cm.availableTokens - requiredOf messages L)
          (convOf messages)).snd = false := by
        rw [truncAux_main cm messages L hL hpos] at hres
        exact hres
      have hsel := selectPair_sum (cm.availableTokens - requiredOf messages L)
        (convOf messages) (by omega) hflag
      have hlastPart :
          (estimateTotalTokens (if L.truthy then [L] else []) : Int) =
            lastTokOf L := by
        unfold lastTokOf
        by_cases h : L.truthy = true
        · simp [h, estimateTotalTokens_cons, estimateTotalTokens_nil]
        · simp [h, estimateTotalTokens_nil]
      have hreq : requiredOf messages L =
          (estimateTotalTokens (sysOf messages) : Int) + lastTokOf L := rfl
      rw [estimateTotalTokens_append, estimateTotalTokens_append]
      push_cast
      omega
    · right
      rw [truncAux_floor cm messages L hL (by omega)]
      unfold lastListOf
      rw [hL]

/-- Witness for C3 at a small no-rescue history. -/
theorem truncate_budget_amended_witness :
    (estimateTotalTokens (truncateMessages defaultCM [hiMsg]) : Int) ≤
      defaultCM.availableTokens ∨
    truncateMessages defaultCM [hiMsg] =
      sysOf [hiMsg] ++ lastListOf [hiMsg] :=
  truncate_budget_amended defaultCM [hiMsg] (by decide)

/-! ## C7: idempotence -/

/-- C7 counterexample: with `available_tokens = 52`, truncating
`[bigMsg, hiMsg]` rescues a truncated copy of `bigMsg` (54 tokens, and no
longer "important"); truncating the output again rejects that copy and drops
it, so the second application differs from the first. -/
theorem truncate_idem_cex :
    truncateMessages cm52 (truncateMessages cm52 [bigMsg, hiMsg]) ≠
      truncateMessages cm52 [bigMsg, hiMsg] := by
  decide

/-- C7 as amended: `truncate_messages` is idempotent on every history on
which it performs no rescue of a truncated important message and whose last
non-system message (if any) is a non-empty (truthy) dict.  (A rescue can
produce an over-budget, no-longer-important copy that the second pass drops,
and a falsy last message shifts the budget computation of the second pass.) -/
theorem truncate_idem_amended (cm : ContextManager) (messages : List Msg)
    (hres : (truncateMessagesAux cm messages).snd = false)
    (ht : ∀ L, lastNonSystem messages = some L → L.truthy = true) :
    truncateMessages cm (truncateMessages cm messages) =
      truncateMessages cm messages := by
  cases hL : lastNonSystem messages with
  | none =>
    have hnil : nonSysOf messages = [] := by
      unfold lastNonSystem at hL
      cases hfil : messages.filter (fun m => !(isSystem m)) with
      | nil =>
        unfold nonSysOf
        exact hfil
      | cons a l =>
        rw [hfil] at hL
        rw [List.getLast?_eq_getLast (a :: l) (by simp)] at hL
        simp at hL
    have hout : truncateMessages cm messages = sysOf messages := by
      unfold truncateMessages
      rw [truncAux_nosys cm messages hnil]
    rw [hout]
    have hsys : ∀ m ∈ sysOf messages, isSystem m = true := by
      intro m hm
      exact mem_sysOf_isSystem hm
    unfold truncateMessages
    rw [truncAux_nosys cm (sysOf messages) (nonSysOf_of_sys _ hsys)]
    exact sysOf_of_sys _ hsys
  | some L =>
    have htL : L.truthy = true := ht L hL
    have hLns : isSystem L = false := lastNonSystem_isSystem hL
    have hsysall : ∀ m ∈ sysOf messages, isSystem m = true := by
      intro m hm
      exact mem_sysOf_isSystem hm
    by_cases hpos : 0 < cm.availableTokens - requiredOf messages L
    · -- main branch
      have hflag : (selectPair (cm.availableTokens - requiredOf messages L)
          (convOf messages)).snd = false := by
        rw [truncAux_main cm messages L hL hpos] at hres
        exact hres
      set b := cm.availableTokens - requiredOf messages L with hb
      set sel := (selectPair b (convOf messages)).fst with hselDef
      have hsub : List.Sublist sel (convOf messages) :=
        selectPair_norescue b _ hflag
      have hsum : (estimateTotalTokens sel : Int) ≤ b :=
        selectPair_sum b _ (by omega) hflag
      have hselns : ∀ m ∈ sel, isSystem m = false := by
        intro m hm
        exact mem_nonSysOf_isSystem (convOf_subset messages (hsub.subset hm))
      have hout : truncateMessages cm messages = sysOf messages ++ sel ++ [L] := by
        unfold truncateMessages
        rw [truncAux_main cm messages L hL hpos]
        simp [htL]
      rw [hout]
      -- facts about the output
      have hLonly : ∀ m ∈ [L], isSystem m = false := by
        intro m hm
        rw [List.mem_singleton.mp hm]
        exact hLns
      have f1 : sysOf (sysOf messages ++ sel ++ [L]) = sysOf messages := by
        rw [sysOf_append, sysOf_append, sysOf_of_sys _ hsysall,
          sysOf_of_nonsys sel hselns, sysOf_of_nonsys [L] hLonly]
        simp
      have f2 : nonSysOf (sysOf messages ++ sel ++ [L]) = sel ++ [L] := by
        rw [nonSysOf_append, nonSysOf_append, nonSysOf_of_sys _ hsysall,
          nonSysOf_of_nonsys sel hselns, nonSysOf_of_nonsys [L] hLonly]
        simp
      have f3 : lastNonSystem (sysOf messages ++ sel ++ [L]) = some L := by
        unfold lastNonSystem
        have := f2
        unfold nonSysOf at this
        rw [this]
        exact List.getLast?_concat sel
      have f4 : requiredOf (sysOf messages ++ sel ++ [L]) L =
          requiredOf messages L := by
        unfold requiredOf
        rw [f1]
      have f5 : convOf (sysOf messages ++ sel ++ [L]) = sel := by
        have h2 := f2
        unfold nonSysOf at h2
        simp only [convOf]
        rw [h2]
        cases hc : sel with
        | nil =>
          simp
        | cons a l =>
          rw [if_pos (by simp)]
          rw [List.dropLast_concat]
      have hpos2 : 0 < cm.availableTokens -
          requiredOf (sysOf messages ++ sel ++ [L]) L := by
        rw [f4]
        exact hpos
      unfold truncateMessages
      rw [truncAux_main cm (sysOf messages ++ sel ++ [L]) L f3 hpos2]
      have hre : selectPair
          (cm.availableTokens - requiredOf (sysOf messages ++ sel ++ [L]) L)
          (convOf (sysOf messages ++ sel ++ [L])) = (sel, false) := by
        rw [f4, f5]
        exact selectPair_self b sel hsum
      rw [hre, f1]
      simp [htL]
    · -- hard-floor branch
      have hout : truncateMessages cm messages = sysOf messages ++ [L] := by
        unfold truncateMessages
        rw [truncAux_floor cm messages L hL (by omega)]
        simp [htL]
      rw [hout]
      have hLonly : ∀ m ∈ [L], isSystem m = false := by
        intro m hm
        rw [List.mem_singleton.mp hm]
        exact hLns
      have f1 : sysOf (sysOf messages ++ [L]) = sysOf messages := by
        rw [sysOf_append, sysOf_of_sys _ hsysall, sysOf_of_nonsys [L] hLonly]
        simp
      have f2 : nonSysOf (sysOf messages ++ [L]) = [L] := by
        rw [nonSysOf_append, nonSysOf_of_sys _ hsysall,
          nonSysOf_of_nonsys [L] hLonly]
        simp
      have f3 : lastNonSystem (sysOf messages ++ [L]) = some L := by
        unfold lastNonSystem
        have := f2
        unfold nonSysOf at this
        rw [this]
        rfl
      have f4 : requiredOf (sysOf messages ++ [L]) L = requiredOf messages L := by
        unfold requiredOf
        rw [f1]
      unfold truncateMessages
      rw [truncAux_floor cm (sysOf messages ++ [L]) L f3 (by rw [f4]; omega)]
      rw [f1]
      simp [htL]

/-- Witness for C7 at a small no-rescue history. -/
theorem truncate_idem_amended_witness :
    truncateMessages defaultCM (truncateMessages defaultCM [hiMsg]) =
      truncateMessages defaultCM [hiMsg] :=
  truncate_idem_amended defaultCM [hiMsg] (by decide)
    (by intro L hL; rw [show lastNonSystem [hiMsg] = some hiMsg from by decide] at hL; rw [← Option.some.inj hL]; decide)

end LocalAIChat
